import Mathlib

/-!
Verification of the Shorthair low-latency FEC transport engine
(`src/shorthair/Shorthair.hpp`) against its natural-language specification.

The repository ships only the class header; every method body lives outside
`src/`.  Each definition below is therefore a shallow embedding modelled from
the specification (`spec.md`), keeping the header's names where Lean allows.
Machine bytes are `Nat` values below 256; wire packets are byte lists;
stateful C++ code becomes explicit state passing returning the list of
callback events fired through the `IShorthair` interface.
-/

set_option maxRecDepth 10000

namespace Shorthair

/-! ### The systematic erasure code (C1)

Modelled from the spec: the erasure code itself is external (`wirehair::Codec`,
invoked by `Shorthair::RecoverGroup` whose body is not under `src/`).  The spec
fixes its contract: a *systematic* code in which the first `k` output symbols
equal the `k` inputs verbatim and any `k` of the `k + r` symbols suffice to
decode.  We realize that contract with a concrete systematic Reed-Solomon code
over the prime field `ZMod 257`, applied independently at each byte position
of the padded symbols. -/

/-- The prime field with 257 elements; bytes 0..255 embed injectively. -/
abbrev F : Type := ZMod 257

instance fact_prime_257 : Fact (Nat.Prime 257) := ⟨by norm_num⟩

/-- Computable field inverse by Fermat's little theorem: `x ^ (257 - 2)`. -/
def finv (x : F) : F := x ^ 255

theorem finv_eq_inv (x : F) : finv x = x⁻¹ := by
  rcases eq_or_ne x 0 with rfl | hx
  · simp [finv, zero_pow]
  · have h : finv x * x = 1 := by
      have := ZMod.pow_card_sub_one_eq_one (p := 257) hx
      calc finv x * x = x ^ 256 := by rw [finv, ← pow_succ]
      _ = 1 := this
    exact eq_inv_of_mul_eq_one_left h

/-- Computable evaluation at `x` of the Lagrange basis polynomial for node `i`
of the node set `s` (nodes are natural numbers cast into the field). -/
def lagBasisEval (s : Finset ℕ) (i : ℕ) (x : F) : F :=
  ∏ j ∈ s.erase i, (x - (j : F)) * finv ((i : F) - (j : F))

/-- Computable evaluation at `x` of the Lagrange interpolant of the values
`f` on the node set `s`. -/
def lagEval (s : Finset ℕ) (f : ℕ → F) (x : F) : F :=
  ∑ i ∈ s, f i * lagBasisEval s i x

theorem lagBasisEval_eq (s : Finset ℕ) (i : ℕ) (x : F) :
    lagBasisEval s i x =
      Polynomial.eval x (Lagrange.basis s (fun n : ℕ => (n : F)) i) := by
  rw [Lagrange.basis, Polynomial.eval_prod, lagBasisEval]
  refine Finset.prod_congr rfl fun j _ => ?_
  rw [Lagrange.basisDivisor]
  simp only [Polynomial.eval_mul, Polynomial.eval_C, Polynomial.eval_sub,
    Polynomial.eval_X]
  rw [finv_eq_inv]
  ring

theorem lagEval_eq (s : Finset ℕ) (f : ℕ → F) (x : F) :
    lagEval s f x =
      Polynomial.eval x (Lagrange.interpolate s (fun n : ℕ => (n : F)) f) := by
  rw [Lagrange.interpolate_apply, Polynomial.eval_finset_sum, lagEval]
  refine Finset.sum_congr rfl fun i _ => ?_
  rw [Polynomial.eval_mul, Polynomial.eval_C, lagBasisEval_eq]

/-- Casting naturals below 257 into `F` is injective on any node set drawn
from `Finset.range m` with `m ≤ 257`. -/
theorem castInjOn_of_le (s : Finset ℕ) (m : ℕ) (hm : m ≤ 257)
    (hs : s ⊆ Finset.range m) :
    Set.InjOn (fun n : ℕ => (n : F)) s := by
  intro a ha b hb hab
  have ha' : a < 257 := lt_of_lt_of_le (Finset.mem_range.mp (hs ha)) hm
  have hb' : b < 257 := lt_of_lt_of_le (Finset.mem_range.mp (hs hb)) hm
  have hab' : (a : F) = (b : F) := hab
  have : ((a : F)).val = ((b : F)).val := congrArg ZMod.val hab'
  rwa [ZMod.val_cast_of_lt ha', ZMod.val_cast_of_lt hb'] at this

/-- Modelled from the spec: the systematic encoder's value for symbol id `i`
at one byte position, with `d` the original values at nodes `0, ..., k-1`.
Ids below `k` are the originals verbatim (systematic property); ids at or
above `k` are recovery values, the degree-below-`k` interpolant evaluated
past the data nodes. -/
def rsSymbol (k : ℕ) (d : ℕ → F) (i : ℕ) : F :=
  if i < k then d i else lagEval (Finset.range k) d (i : F)

/-- Modelled from the spec: the erasure decoder's output for original id `i`
at one byte position, given the received symbol ids `S` and their values. -/
def rsDecode (S : Finset ℕ) (recv : ℕ → F) (i : ℕ) : F :=
  lagEval S recv (i : F)

theorem rsSymbol_eq_eval (k : ℕ) (hk : k ≤ 257) (d : ℕ → F) (j : ℕ) :
    rsSymbol k d j =
      Polynomial.eval (j : F)
        (Lagrange.interpolate (Finset.range k) (fun n : ℕ => (n : F)) d) := by
  rw [rsSymbol]
  split
  · next hj =>
    rw [Lagrange.eval_interpolate_at_node]
    · exact castInjOn_of_le _ k hk (fun x hx => hx)
    · exact Finset.mem_range.mpr hj
  · exact lagEval_eq _ _ _

/-- Field-level heart of the round trip: from any subset `S` of at least `k`
of the `k + r` symbol ids, Lagrange decoding returns every original value. -/
theorem rsDecode_eq (k r : ℕ) (d : ℕ → F) (S : Finset ℕ)
    (hkr : k + r ≤ 257) (hS : S ⊆ Finset.range (k + r)) (hcard : k ≤ S.card)
    (i : ℕ) (hi : i < k) :
    rsDecode S (rsSymbol k d) i = d i := by
  have hk : k ≤ 257 := le_trans (Nat.le_add_right k r) hkr
  have hinjS : Set.InjOn (fun n : ℕ => (n : F)) S := castInjOn_of_le S (k + r) hkr hS
  have hinjk : Set.InjOn (fun n : ℕ => (n : F)) (Finset.range k) :=
    castInjOn_of_le _ k hk (fun x hx => hx)
  set f : Polynomial F :=
    Lagrange.interpolate (Finset.range k) (fun n : ℕ => (n : F)) d with hf
  have hdeg : f.degree < (S.card : WithBot ℕ) := by
    have h1 : f.degree < ((Finset.range k).card : WithBot ℕ) :=
      Lagrange.degree_interpolate_lt _ hinjk
    rw [Finset.card_range] at h1
    exact lt_of_lt_of_le h1 (by exact_mod_cast hcard)
  have hfS : f = Lagrange.interpolate S (fun n : ℕ => (n : F))
      (fun j => Polynomial.eval ((j : ℕ) : F) f) :=
    Lagrange.eq_interpolate hinjS hdeg
  have hvals : Lagrange.interpolate S (fun n : ℕ => (n : F)) (rsSymbol k d)
      = Lagrange.interpolate S (fun n : ℕ => (n : F))
          (fun j => Polynomial.eval ((j : ℕ) : F) f) := by
    refine Lagrange.interpolate_eq_of_values_eq_on _ _ fun j _ => ?_
    rw [rsSymbol_eq_eval k hk d j, hf]
  rw [rsDecode, lagEval_eq, hvals, ← hfS, hf,
    Lagrange.eval_interpolate_at_node _ hinjk (Finset.mem_range.mpr hi)]

/-- Modelled from the spec: systematic encoding of a whole code group.  The
group's originals are `data i pos` (byte at position `pos` of original `i`,
all positions padded to a common length); symbol `j` carries field values at
every byte position. -/
def wirehairEncode (k : ℕ) (data : ℕ → ℕ → ℕ) (j : ℕ) (pos : ℕ) : F :=
  rsSymbol k (fun i => ((data i pos : ℕ) : F)) j

/-- Modelled from the spec: group recovery (`Shorthair::RecoverGroup`, body
not under `src/`).  Given the received symbol ids `S` and their field values,
reconstruct the byte of original `i` at position `pos`. -/
def RecoverGroup (k : ℕ) (S : Finset ℕ) (recv : ℕ → ℕ → F) (i pos : ℕ) : ℕ :=
  (rsDecode S (fun j => recv j pos) i).val

/-- C1: for every code group encoded with `k` originals and `r` recovery
symbols by the systematic encoder, decoding from any subset of at least `k`
of the `k + r` symbols recovers all `k` original payloads byte-identically;
with no loss (`S` everything, or all originals present) this is the identity
on the original payload set. -/
theorem recoverGroup_roundtrip (k r : ℕ) (data : ℕ → ℕ → ℕ) (S : Finset ℕ)
    (hkr : k + r ≤ 257) (hS : S ⊆ Finset.range (k + r)) (hcard : k ≤ S.card)
    (hbytes : ∀ i < k, ∀ pos, data i pos < 256) :
    ∀ i < k, ∀ pos, RecoverGroup k S (wirehairEncode k data) i pos = data i pos := by
  intro i hi pos
  rw [RecoverGroup]
  have : (fun j => wirehairEncode k data j pos) = rsSymbol k (fun i => ((data i pos : ℕ) : F)) := by
    funext j; rfl
  rw [this, rsDecode_eq k r _ S hkr hS hcard i hi]
  exact ZMod.val_cast_of_lt (lt_trans (hbytes i hi pos) (by norm_num))

/-- Concrete witness for C1: two one-byte originals `3` and `4` with one
recovery symbol; decode from the subset that lost original `1`. -/
theorem recoverGroup_roundtrip_witness :
    RecoverGroup 2 {0, 2} (wirehairEncode 2 (fun i _ => i + 3)) 1 0 = 4 :=
  recoverGroup_roundtrip 2 1 (fun i _ => i + 3) {0, 2} (by decide) (by decide)
    (by decide) (fun i hi pos => by show i + 3 < 256; omega) 1 (by decide) 0

/-! ### Wire constants and settings

Modelled from the spec: every plaintext starts with a 1-byte type tag; the
cipher envelope adds a fixed overhead; the data header carries
(type, group, symbol id, original count, recovery count). -/

/-- Type tag of data symbols (original and recovery). -/
def DATA_TYPE : ℕ := 0

/-- Reserved OOB type tag of the pong telemetry message. -/
def PONG_TYPE : ℕ := 1

/-- First type tag owned by the application; smaller tags are reserved. -/
def OOB_TYPE_MIN : ℕ := 16

/-- Modelled from the spec: fixed ciphertext expansion of the authenticated
encryption envelope, in bytes (nonce + tag). -/
def CIPHER_OVERHEAD : ℕ := 11

/-- Modelled from the spec: bytes of the data-symbol plaintext header. -/
def DATA_HEADER_BYTES : ℕ := 5

/-- Smallest `max_data_size` able to hold the header plus cipher overhead. -/
def MIN_DATA_SIZE : ℤ := DATA_HEADER_BYTES + CIPHER_OVERHEAD

/-- The `Settings` struct of `Shorthair.hpp` (the callback interface is
modelled by returning `Event` lists instead). -/
structure Settings where
  initiator : Bool
  target_loss : ℚ
  min_loss : ℚ
  min_delay : ℤ
  max_delay : ℤ
  max_data_size : ℤ
deriving Repr, DecidableEq

/-- Upward calls through the caller-supplied `IShorthair` interface. -/
inductive Event where
  | onPacket : List ℕ → Event
  | onOOB : List ℕ → Event
  | sendData : List ℕ → Event
deriving Repr, DecidableEq

/-! ### Receiver group ring and cursor classification (C3, C4, C10) -/

/-- Ring index of an 8-bit group id into the 256-entry tables
(`_groups`, `_group_stamps`). -/
def groupIndex (g : ℕ) : Fin 256 := ⟨g % 256, Nat.mod_lt g (by norm_num)⟩

/-- Modelled from the spec: signed 8-bit distance from the receiver's
largest-seen cursor to a received group id, in `[-128, 127]`. -/
def signedDist8 (id cursor : ℕ) : ℤ :=
  let f := (id % 256 + 256 - cursor % 256) % 256
  if f < 128 then (f : ℤ) else (f : ℤ) - 256

/-- Receiver-side classification of a received group id. -/
inductive GroupClass where
  | current
  | ahead
  | behind
  | stale
deriving Repr, DecidableEq

/-- Modelled from the spec: a received id is interpreted relative to the
largest-seen cursor using signed 8-bit distance; ids ahead advance the
cursor, ids behind are recent past, ids more than 128 behind would be
stale. -/
def classifyGroup (cursor id : ℕ) : GroupClass :=
  let d := signedDist8 id cursor
  if d = 0 then GroupClass.current
  else if 0 < d then GroupClass.ahead
  else if 128 < -d then GroupClass.stale
  else GroupClass.behind

/-- Receiver-side state of one code group (one slot of the 256-entry ring):
learned parameters, received symbol ids, received original payloads and
recovery chunks, and the done flag. -/
structure CodeGroup where
  opened : Bool
  done : Bool
  k : ℕ
  r : ℕ
  ids : List ℕ
  origs : List (ℕ × List ℕ)
  recs : List (ℕ × List ℕ)
deriving Repr, DecidableEq

/-- A never-touched ring slot. -/
def CodeGroup.fresh : CodeGroup := ⟨false, false, 0, 0, [], [], []⟩

/-- Receiver half of the engine: the `_largest_group` cursor, the
256-entry `_groups` ring, and the `_seen`/`_count` statistics. -/
structure RxState where
  largest : ℕ
  groups : Fin 256 → CodeGroup
  seen : ℕ
  count : ℕ

/-- Close a ring slot: mark done and contribute its (seen, count)
statistics. -/
def closeGroup (st : RxState) (gi : Fin 256) : RxState :=
  let G := st.groups gi
  if G.opened = true ∧ G.done = false then
    { st with groups := Function.update st.groups gi { G with done := true },
              seen := st.seen + G.origs.length,
              count := st.count + G.k }
  else st

/-- Advance the cursor to a newer id, closing the superseded groups strictly
between the old and the new cursor. -/
def advanceCursor (st : RxState) (id : ℕ) : RxState :=
  let d := (id % 256 + 256 - st.largest % 256) % 256
  let st1 := (List.range (d - 1)).foldl
      (fun acc t => closeGroup acc (groupIndex (st.largest + 1 + t))) st
  { st1 with largest := id % 256 }

/-- One parsed data symbol: group id, symbol id, the group's parameters as
carried in every symbol header, and the payload bytes. -/
structure DataSymbol where
  group : ℕ
  id : ℕ
  k : ℕ
  r : ℕ
  payload : List ℕ
deriving Repr, DecidableEq

/-- Field value of a stored symbol at one byte position (recovery chunks
store field elements as naturals). -/
def symValAt (G : CodeGroup) (j pos : ℕ) : F :=
  match List.lookup j (G.origs ++ G.recs) with
  | some pl => ((pl.getD pos 0 : ℕ) : F)
  | none => 0

/-- Common padded chunk length of a group's stored symbols. -/
def chunkLen (G : CodeGroup) : ℕ :=
  ((G.origs ++ G.recs).map (fun pr => pr.2.length)).foldr max 0

/-- Deliveries produced by invoking the erasure decoder on a decodable
group: the missing originals, in ascending symbol-id order (already
delivered originals are suppressed). -/
def recoverEvents (G : CodeGroup) : List Event :=
  ((List.range G.k).filter (fun i => (List.lookup i G.origs).isNone)).map
    (fun i => Event.onPacket ((List.range (chunkLen G)).map
      (fun pos => RecoverGroup G.k G.ids.toFinset (fun j => symValAt G j) i pos)))

/-- Modelled from the spec (`Shorthair::OnData` body is not under `src/`),
steps 2-5 of the receive algorithm, after cursor classification: drop (but
count) symbols of done groups, drop malformed symbols, record the symbol,
deliver originals immediately, decode once `received >= original_count`
with some original missing, and close the group. -/
def processSymbolCore (st1 : RxState) (s : DataSymbol) : RxState × List Event :=
  let gi := groupIndex s.group
  let G := st1.groups gi
  if G.done = true then ({ st1 with count := st1.count + 1 }, [])
  else if G.opened = true ∧ (G.k ≠ s.k ∨ G.r ≠ s.r) then (st1, [])
  else if s.k + s.r ≤ s.id then (st1, [])
  else if s.id ∈ G.ids then (st1, [])
  else
    let isOrig : Bool := decide (s.id < s.k)
    let G1 : CodeGroup :=
      { opened := true, done := false, k := s.k, r := s.r,
        ids := s.id :: G.ids,
        origs := if isOrig then G.origs ++ [(s.id, s.payload)] else G.origs,
        recs := if isOrig then G.recs else G.recs ++ [(s.id, s.payload)] }
    let immediate : List Event := if isOrig then [Event.onPacket s.payload] else []
    if s.k ≤ G1.ids.length then
      let recovered := if G1.origs.length < s.k then recoverEvents G1 else []
      ({ st1 with groups := Function.update st1.groups gi { G1 with done := true },
                  seen := st1.seen + G1.origs.length,
                  count := st1.count + s.k },
       immediate ++ recovered)
    else
      ({ st1 with groups := Function.update st1.groups gi G1 }, immediate)

/-- Modelled from the spec: step 1 (cursor classification) followed by the
core processing; stale symbols are dropped. -/
def processSymbol (st : RxState) (s : DataSymbol) : RxState × List Event :=
  let cls := classifyGroup st.largest s.group
  if cls = GroupClass.stale then (st, [])
  else processSymbolCore (if cls = GroupClass.ahead then advanceCursor st s.group else st) s

/-- Modelled from the spec: `Shorthair::OnData` parses the plaintext data
header `[group, id, original_count, recovery_count]` and processes the
symbol; too-short packets are dropped. -/
def OnData (st : RxState) (pkt : List ℕ) : RxState × List Event :=
  match pkt with
  | g :: i :: kk :: rr :: payload => processSymbol st ⟨g, i, kk, rr, payload⟩
  | _ => (st, [])

/-- Run a sequence of received data packets, accumulating events. -/
def runPackets : RxState → List (List ℕ) → RxState × List Event
  | st, [] => (st, [])
  | st, p :: rest =>
    let a := OnData st p
    let b := runPackets a.1 rest
    (b.1, a.2 ++ b.2)

/-! ### Loss estimator (C5) -/

/-- Window length of the loss estimator, in closed groups. -/
def LOSS_BINS : ℕ := 32

/-- The `LossEstimator`: (seen, count) contributions of the most recent
closed groups, newest first, plus the configured floor. -/
structure LossEstimator where
  bins : List (ℕ × ℕ)
  minLoss : ℚ
deriving Repr, DecidableEq

/-- Modelled from the spec: `Shorthair::UpdateLoss` inserts a pong's
(seen, count) into the sliding window. -/
def UpdateLoss (e : LossEstimator) (seen count : ℕ) : LossEstimator :=
  { e with bins := ((seen, count) :: e.bins).take LOSS_BINS }

/-- Aggregate packets seen across the window. -/
def LossEstimator.sumSeen (e : LossEstimator) : ℕ := (e.bins.map Prod.fst).sum

/-- Aggregate packets expected across the window. -/
def LossEstimator.sumCount (e : LossEstimator) : ℕ := (e.bins.map Prod.snd).sum

/-- Modelled from the spec: reported loss `p = max(1 - seen/count, min_loss)`
over the window aggregates. -/
def LossEstimator.estimate (e : LossEstimator) : ℚ :=
  max (1 - (e.sumSeen : ℚ) / (e.sumCount : ℚ)) e.minLoss

/-! ### Delay estimator (C6) -/

/-- The `DelayEstimator`: whether a pong has been processed yet, and the
smoothed one-way delay estimate in milliseconds. -/
structure DelayEstimator where
  hasEstimate : Bool
  delay : ℤ
deriving Repr, DecidableEq

/-- Clamp of the smoothed delay into `[lo, hi]`. -/
def clampDelay (lo hi x : ℤ) : ℤ := min hi (max lo x)

/-- Modelled from the spec: `Shorthair::UpdateRTT` halves the round-trip
sample, folds it into an exponential moving average with weight 1/8, and
clamps the result to `[min_delay, max_delay]`. -/
def UpdateRTT (lo hi : ℤ) (e : DelayEstimator) (rttMs : ℤ) : DelayEstimator :=
  let sample := rttMs / 2
  if e.hasEstimate then ⟨true, clampDelay lo hi ((7 * e.delay + sample) / 8)⟩
  else ⟨true, clampDelay lo hi sample⟩

/-! ### Redundancy planner (C7) -/

/-- Upper-tail binomial probability: chance that strictly more than `r` of
`n` packets are lost under independent per-packet loss `p`. -/
def binomTail (n r : ℕ) (p : ℚ) : ℚ :=
  ∑ i ∈ Finset.Icc (r + 1) n, (n.choose i : ℚ) * p ^ i * (1 - p) ^ (n - i)

/-- Clamp on the planner's recovery count (systematic-encoder capability). -/
def MAX_REDUNDANCY : ℕ := 255

/-- Modelled from the spec: the redundancy planner behind
`Shorthair::_redundant_count` picks the smallest recovery count `r` whose
binomial upper tail is within the target residual loss `q`, clamped to the
planner maximum. -/
def CalculateRedundancy (p q : ℚ) (k : ℕ) : ℕ :=
  match (List.range (MAX_REDUNDANCY + 1)).find?
      (fun r => decide (binomTail (k + r) r p ≤ q)) with
  | some r => r
  | none => MAX_REDUNDANCY

/-! ### The endpoint facade (C2, C8, C9) -/

/-- The whole `Shorthair` engine state.  The cipher contexts are modelled as
black-box encrypt/decrypt functions (authenticated decryption returns `none`
on failure). -/
structure State where
  initialized : Bool
  settings : Settings
  decrypt : List ℕ → Option (List ℕ)
  encrypt : List ℕ → List ℕ
  rx : RxState
  delay : DelayEstimator
  loss : LossEstimator
  code_group : ℕ
  group_stamps : Fin 256 → ℕ
  curGroup : List (List ℕ)
  swapInterval : ℤ
  now : ℕ

/-- Largest plaintext accepted by `Send`. -/
def maxPayloadBytes (s : Settings) : ℤ :=
  s.max_data_size - DATA_HEADER_BYTES - CIPHER_OVERHEAD

/-- Modelled from the spec: a pong carries (group, seen, count); the sender
matches the group against `_group_stamps` for the RTT sample and applies the
(seen, count) pair to the loss estimator. -/
def handlePong (st : State) (rest : List ℕ) : State × List Event :=
  match rest with
  | g :: sn :: cnt :: _ =>
    let rtt := st.now - st.group_stamps (groupIndex g)
    ({ st with
        delay := UpdateRTT st.settings.min_delay st.settings.max_delay st.delay (rtt : ℤ),
        loss := UpdateLoss st.loss sn cnt }, [])
  | _ => (st, [])

/-- Modelled from the spec: `Shorthair::Recv` performs authenticated
decryption (dropping failures silently), then dispatches on the type tag:
data symbols to the decoder, the reserved pong to the telemetry handlers,
other reserved tags are dropped, application OOB tags are forwarded. -/
def Recv (st : State) (pkt : List ℕ) : State × List Event :=
  match st.decrypt pkt with
  | none => (st, [])
  | some pt =>
    match pt with
    | [] => (st, [])
    | t :: rest =>
      if t = DATA_TYPE then
        let a := OnData st.rx rest
        ({ st with rx := a.1 }, a.2)
      else if t = PONG_TYPE then handlePong st rest
      else if t < OOB_TYPE_MIN then (st, [])
      else (st, [Event.onOOB (t :: rest)])

/-- Modelled from the spec: `Shorthair::Send` rejects overlong payloads
without any state change; otherwise it appends the payload to the current
code group and emits it immediately as an encrypted original symbol. -/
def Send (st : State) (data : List ℕ) : State × List Event :=
  if maxPayloadBytes st.settings < (data.length : ℤ) then (st, [])
  else
    ({ st with curGroup := st.curGroup ++ [data] },
     [Event.sendData (st.encrypt
        (DATA_TYPE :: st.code_group % 256 :: st.curGroup.length :: data))])

/-- Modelled from the spec: the swap interval is proportional to the
smoothed delay (factor 1.5 here, within the design range). -/
def CalculateInterval (d : ℤ) : ℤ := d + d / 2

/-- Modelled from the spec: `Shorthair::Tick` recomputes the swap interval
from the delay estimate and emits a pong when receiver statistics are
pending.  It never modifies the delay estimate itself. -/
def Tick (st : State) : State × List Event :=
  let st1 := { st with swapInterval := CalculateInterval st.delay.delay }
  if 0 < st1.rx.count then
    ({ st1 with rx := { st1.rx with seen := 0, count := 0 } },
     [Event.sendData (st1.encrypt
        (PONG_TYPE :: st1.rx.largest :: st1.rx.seen :: st1.rx.count :: []))])
  else (st1, [])

/-- The receiver state right after a successful `Initialize`. -/
def freshRx : RxState := ⟨0, fun _ => CodeGroup.fresh, 0, 0⟩

/-- Engine state right after a successful `Initialize`. -/
def freshState (s : Settings) (dec : List ℕ → Option (List ℕ))
    (enc : List ℕ → List ℕ) : State :=
  { initialized := true, settings := s, decrypt := dec, encrypt := enc,
    rx := freshRx, delay := ⟨false, 0⟩, loss := ⟨[], s.min_loss⟩,
    code_group := 0, group_stamps := fun _ => 0, curGroup := [],
    swapInterval := 0, now := 0 }

/-- Modelled from the spec: `Shorthair::Initialize` validates the settings
(`min_loss` in `[0,1]`, `min_delay <= max_delay`, `max_data_size` large
enough for header plus cipher overhead) and the key (black-box `keyOk`);
on failure it returns `false` and leaves the instance untouched. -/
def InitializeOn (st : State) (keyOk : Bool) (s : Settings) : Bool × State :=
  if 0 ≤ s.min_loss ∧ s.min_loss ≤ 1 ∧ s.min_delay ≤ s.max_delay
      ∧ MIN_DATA_SIZE ≤ s.max_data_size ∧ keyOk = true then
    (true, freshState s st.decrypt st.encrypt)
  else (false, st)

/-! ### Shared helper lemmas and example states -/

theorem classifyGroup_ne_stale (cursor id : ℕ) :
    classifyGroup cursor id ≠ GroupClass.stale := by
  simp only [classifyGroup, signedDist8]
  split_ifs with h1 h2 h3 <;> simp_all <;> omega

theorem processSymbolCore_largest (st : RxState) (s : DataSymbol) :
    ((processSymbolCore st s).1).largest = st.largest := by
  simp only [processSymbolCore]
  split_ifs <;> rfl

/-- Example settings used by concrete witnesses. -/
def exSettings : Settings :=
  { initiator := true, target_loss := 1 / 10000, min_loss := 3 / 100,
    min_delay := 100, max_delay := 2000, max_data_size := 1350 }

/-- Example engine state whose inbound cipher rejects everything. -/
def exState : State := freshState exSettings (fun _ => none) (fun l => l)

/-- Example engine state that has not been initialized. -/
def exUninit : State := { exState with initialized := false }

/-! ### C2: authentication failure is a silent no-op -/

/-- C2: for every input packet passed to `Recv` that fails authenticated
decryption, `Recv` invokes no upward callback (neither `OnPacket` nor
`OnOOB`) and leaves the engine state unchanged, so the seen/count statistics
and group state observable by any subsequent pong are untouched. -/
theorem Recv_auth_fail (st : State) (pkt : List ℕ)
    (h : st.decrypt pkt = none) : Recv st pkt = (st, []) := by
  unfold Recv
  rw [h]

/-- Witness for C2 at a concrete state and packet. -/
theorem Recv_auth_fail_witness :
    exState.decrypt [1, 2, 3] = none ∧ Recv exState [1, 2, 3] = (exState, []) :=
  ⟨rfl, Recv_auth_fail exState [1, 2, 3] rfl⟩

/-! ### C4: cursor classification of group ids -/

/-- C4 (amended): with `C` the true group number at the cursor (wire id
`C % 256`) and `G` the true group number of a received symbol, the signed
mod-256 classification is correct across the 255-to-0 wrap whenever the true
offset is within the signed 8-bit window: equal ids are current, ids up to
127 ahead advance the cursor (including after wrap), ids up to 128 behind
are accepted as recent past.  Ids more than 128 behind alias to ids ahead
and are treated as new groups rather than dropped. -/
theorem classifyGroup_window_correct (C G : ℕ) :
    (G = C → classifyGroup (C % 256) (G % 256) = GroupClass.current) ∧
    (C < G → G ≤ C + 127 → classifyGroup (C % 256) (G % 256) = GroupClass.ahead) ∧
    (G < C → C ≤ G + 128 → classifyGroup (C % 256) (G % 256) = GroupClass.behind) ∧
    (∀ st : RxState, ∀ s : DataSymbol,
      classifyGroup st.largest s.group = GroupClass.ahead →
      ((processSymbol st s).1).largest = s.group % 256) := by
  refine ⟨?_, ?_, ?_, ?_⟩
  · intro h
    simp only [classifyGroup, signedDist8]
    split_ifs <;> first | rfl | (exfalso; omega)
  · intro h1 h2
    simp only [classifyGroup, signedDist8]
    split_ifs <;> first | rfl | (exfalso; omega)
  · intro h1 h2
    simp only [classifyGroup, signedDist8]
    split_ifs <;> first | rfl | (exfalso; omega)
  · intro st s h
    simp only [processSymbol, h]
    rw [if_pos trivial, if_neg (by decide : ¬(GroupClass.ahead = GroupClass.stale)),
      processSymbolCore_largest]
    rfl

/-- Counterexample to C4 as stated: after 130 groups (cursor at true group
129), a symbol of true group 0 is 129 > 128 groups behind, yet the signed
mod-256 classifier resolves its wire id to `ahead` (advancing the cursor),
not to a stale drop: no wire id can be classified more than 128 behind. -/
theorem classifyGroup_stale_cex :
    129 - 0 > 128 ∧ classifyGroup (129 % 256) (0 % 256) = GroupClass.ahead ∧
    classifyGroup (129 % 256) (0 % 256) ≠ GroupClass.stale := by decide

/-- Witness for C4 at concrete inputs, including the 255-to-0 wrap. -/
theorem classifyGroup_window_witness :
    classifyGroup (255 % 256) (256 % 256) = GroupClass.ahead ∧
    classifyGroup (300 % 256) (300 % 256) = GroupClass.current ∧
    classifyGroup (260 % 256) (258 % 256) = GroupClass.behind :=
  ⟨(classifyGroup_window_correct 255 256).2.1 (by decide) (by decide),
   (classifyGroup_window_correct 300 300).1 rfl,
   (classifyGroup_window_correct 260 258).2.2.1 (by decide) (by decide)⟩

/-! ### C5: the loss estimator reports `max(1 - seen/count, min_loss)` -/

/-- C5: after a pong's (seen, count) is applied, the loss estimator reports
`p = max(1 - seen/count, min_loss)` over the window aggregates; in
particular the reported loss is never below the `min_loss` floor. -/
theorem UpdateLoss_reports_max_floor (e : LossEstimator) (seen count : ℕ) :
    (UpdateLoss e seen count).estimate
        = max (1 - ((UpdateLoss e seen count).sumSeen : ℚ)
              / ((UpdateLoss e seen count).sumCount : ℚ)) e.minLoss ∧
    e.minLoss ≤ (UpdateLoss e seen count).estimate := by
  constructor
  · rfl
  · exact le_max_right _ _

/-! ### C6: the smoothed delay estimate stays inside the clamp -/

/-- C6: once the first pong has been processed, the smoothed one-way delay
estimate `D` satisfies `min_delay <= D <= max_delay`, the clamp is preserved
by every subsequent `UpdateRTT`, and `Tick` never changes the estimate. -/
theorem delay_estimate_clamped (lo hi : ℤ) (hlh : lo ≤ hi)
    (e0 : DelayEstimator) (first : ℤ) (rest : List ℤ) (st : State) :
    (lo ≤ (UpdateRTT lo hi e0 first).delay ∧ (UpdateRTT lo hi e0 first).delay ≤ hi) ∧
    (lo ≤ (rest.foldl (UpdateRTT lo hi) (UpdateRTT lo hi e0 first)).delay ∧
      (rest.foldl (UpdateRTT lo hi) (UpdateRTT lo hi e0 first)).delay ≤ hi) ∧
    ((Tick st).1).delay = st.delay := by
  have hclamp : ∀ x : ℤ, lo ≤ clampDelay lo hi x ∧ clampDelay lo hi x ≤ hi := by
    intro x
    exact ⟨le_min hlh (le_max_left _ _), min_le_left _ _⟩
  have hupd : ∀ (e : DelayEstimator) (x : ℤ),
      lo ≤ (UpdateRTT lo hi e x).delay ∧ (UpdateRTT lo hi e x).delay ≤ hi := by
    intro e x
    unfold UpdateRTT
    split <;> exact hclamp _
  have hfold : ∀ (l : List ℤ) (e : DelayEstimator),
      lo ≤ e.delay → e.delay ≤ hi →
      lo ≤ (l.foldl (UpdateRTT lo hi) e).delay ∧
        (l.foldl (UpdateRTT lo hi) e).delay ≤ hi := by
    intro l
    induction l with
    | nil => exact fun e h1 h2 => ⟨h1, h2⟩
    | cons x xs ih =>
      intro e h1 h2
      exact ih _ (hupd e x).1 (hupd e x).2
  refine ⟨hupd e0 first, hfold rest _ (hupd e0 first).1 (hupd e0 first).2, ?_⟩
  simp only [Tick]
  split <;> rfl

/-- Witness for C6 at concrete inputs. -/
theorem delay_estimate_clamped_witness :
    ((100 ≤ (UpdateRTT 100 2000 ⟨false, 0⟩ 500).delay ∧
        (UpdateRTT 100 2000 ⟨false, 0⟩ 500).delay ≤ 2000) ∧
      (100 ≤ (List.foldl (UpdateRTT 100 2000) (UpdateRTT 100 2000 ⟨false, 0⟩ 500) [10000]).delay ∧
        (List.foldl (UpdateRTT 100 2000) (UpdateRTT 100 2000 ⟨false, 0⟩ 500) [10000]).delay ≤ 2000) ∧
      ((Tick exState).1).delay = exState.delay) :=
  delay_estimate_clamped 100 2000 (by decide) ⟨false, 0⟩ 500 [10000] exState

/-! ### C7: the redundancy planner meets the residual-loss target -/

/-- C7: whenever some admissible recovery count meets the target, the
planner's choice `r` keeps the binomial upper-tail probability that more
than `r` of the `k + r` packets are lost within `q = target_loss`; and for
`k = 1` with loss estimate `p` above the target, the chosen `r` is
nonzero. -/
theorem CalculateRedundancy_meets_target (p q : ℚ) (k : ℕ)
    (hex : ∃ r, r ≤ MAX_REDUNDANCY ∧ binomTail (k + r) r p ≤ q) :
    binomTail (k + CalculateRedundancy p q k) (CalculateRedundancy p q k) p ≤ q ∧
    (k = 1 → q < p → CalculateRedundancy p q k ≠ 0) := by
  obtain ⟨r0, hr0, htail⟩ := hex
  have hmem : r0 ∈ List.range (MAX_REDUNDANCY + 1) :=
    List.mem_range.mpr (by omega)
  rcases hfind : (List.range (MAX_REDUNDANCY + 1)).find?
      (fun r => decide (binomTail (k + r) r p ≤ q)) with _ | r
  · exfalso
    have := List.find?_eq_none.mp hfind r0 hmem
    simp only [decide_eq_true_eq] at this
    exact this htail
  · have hpred : binomTail (k + r) r p ≤ q := by
      have := List.find?_some hfind
      simpa using this
    have hval : CalculateRedundancy p q k = r := by
      unfold CalculateRedundancy
      rw [hfind]
    constructor
    · rw [hval]; exact hpred
    · intro hk1 hqp h0
      rw [hval] at h0
      subst hk1
      subst h0
      have h1 : binomTail 1 0 p = p := by
        simp [binomTail]
      rw [h1] at hpred
      exact absurd hpred (not_le.mpr hqp)

/-- Witness for C7: `p = 1/2`, `q = 1/4`, `k = 1`; one recovery symbol
suffices (tail probability `1/4`), and the planner picks a nonzero count. -/
theorem CalculateRedundancy_witness :
    binomTail (1 + CalculateRedundancy (1/2) (1/4) 1) (CalculateRedundancy (1/2) (1/4) 1) (1/2) ≤ 1/4 ∧
    (1 = 1 → (1/4 : ℚ) < 1/2 → CalculateRedundancy (1/2) (1/4) 1 ≠ 0) :=
  CalculateRedundancy_meets_target (1/2) (1/4) 1
    ⟨1, by norm_num [MAX_REDUNDANCY],
      by norm_num [binomTail, Finset.Icc_self, Finset.sum_singleton]⟩

/-! ### C8: `Initialize` rejects invalid configurations -/

/-- C8: `Initialize` returns failure when `min_loss` is outside `[0,1]`,
when `min_delay > max_delay`, when `max_data_size` is below the minimum
able to hold header plus cipher overhead, or when the cipher rejects the
key; on any such failure the instance is returned unchanged, so it remains
uninitialized. -/
theorem InitializeOn_rejects (st : State) (keyOk : Bool) (s : Settings)
    (hbad : s.min_loss < 0 ∨ 1 < s.min_loss ∨ s.max_delay < s.min_delay
      ∨ s.max_data_size < MIN_DATA_SIZE ∨ keyOk = false) :
    InitializeOn st keyOk s = (false, st) ∧
    ((InitializeOn st keyOk s).2).initialized = st.initialized := by
  have hcond : ¬(0 ≤ s.min_loss ∧ s.min_loss ≤ 1 ∧ s.min_delay ≤ s.max_delay
      ∧ MIN_DATA_SIZE ≤ s.max_data_size ∧ keyOk = true) := by
    intro hc
    obtain ⟨h1, h2, h3, h4, h5⟩ := hc
    rcases hbad with h | h | h | h | h
    · linarith
    · linarith
    · omega
    · omega
    · rw [h] at h5; exact Bool.false_ne_true h5
  have heq : InitializeOn st keyOk s = (false, st) := by
    unfold InitializeOn
    rw [if_neg hcond]
  exact ⟨heq, by rw [heq]⟩

/-- Example invalid settings: `min_loss = 2` is outside `[0, 1]`. -/
def exBadSettings : Settings := { exSettings with min_loss := 2 }

/-- Witness for C8: a concrete uninitialized instance stays uninitialized. -/
theorem InitializeOn_rejects_witness :
    InitializeOn exUninit true exBadSettings = (false, exUninit) ∧
    ((InitializeOn exUninit true exBadSettings).2).initialized = exUninit.initialized :=
  InitializeOn_rejects exUninit true exBadSettings
    (Or.inr (Or.inl (by norm_num [exBadSettings, exSettings])))

/-! ### C9: overlong `Send` fails without side effects -/

/-- C9: a `Send` whose payload exceeds the maximum permitted size
(`max_data_size` minus header and cipher overhead) fails with the engine
state unchanged: nothing is appended to the current code group and nothing
is handed to `SendData`. -/
theorem Send_overlong_no_change (st : State) (data : List ℕ)
    (h : maxPayloadBytes st.settings < (data.length : ℤ)) :
    Send st data = (st, []) := by
  unfold Send
  rw [if_pos h]

/-- Witness for C9: 1335 bytes exceed the 1334-byte budget of the example
settings. -/
theorem Send_overlong_witness :
    maxPayloadBytes exState.settings < ((List.replicate 1335 0).length : ℤ) ∧
    Send exState (List.replicate 1335 0) = (exState, []) :=
  ⟨by decide, Send_overlong_no_change exState (List.replicate 1335 0) (by decide)⟩

/-! ### C10: group-table accesses are in bounds -/

/-- C10: the receiver group ring `_groups` and the sender stamp table
`_group_stamps` have exactly 256 entries and are addressed only through
`groupIndex`, which reduces any group id modulo 256, so every access is in
bounds; for ids already in byte range the index is the id itself. -/
theorem group_tables_inbounds (g : ℕ) :
    (groupIndex g).val < 256 ∧ (groupIndex g).val = g % 256 ∧
    (groupIndex (g % 256)).val = g % 256 ∧
    Fintype.card (Fin 256) = 256 := by
  refine ⟨(groupIndex g).isLt, rfl, ?_, by simp⟩
  show g % 256 % 256 = g % 256
  omega

/-! ### C3: in-order lossless delivery, exactly once per original -/

/-- Payloads paired with consecutive symbol ids starting at `base`. -/
def withIds : ℕ → List (List ℕ) → List (ℕ × List ℕ)
  | _, [] => []
  | b, p :: ps => (b, p) :: withIds (b + 1) ps

theorem withIds_append_singleton (l : List (List ℕ)) (x : List ℕ) (b : ℕ) :
    withIds b (l ++ [x]) = withIds b l ++ [(b + l.length, x)] := by
  induction l generalizing b with
  | nil => simp [withIds]
  | cons y ys ih =>
    have h : b + 1 + ys.length = b + (ys.length + 1) := by omega
    simp [withIds, ih, h]

/-- Wire packets of the data symbols `l` (id, payload pairs) of group `g`. -/
def symbolPackets (g kk rr : ℕ) (l : List (ℕ × List ℕ)) : List (List ℕ) :=
  l.map (fun ip => g :: ip.1 :: kk :: rr :: ip.2)

/-- Wire packets of a group's originals, in send order. -/
def originalPackets (g kk rr : ℕ) (ps : List (List ℕ)) : List (List ℕ) :=
  symbolPackets g kk rr (withIds 0 ps)

/-- Wire packets of a group's recovery symbols, in emission order. -/
def recoveryPackets (g kk rr : ℕ) (cs : List (List ℕ)) : List (List ℕ) :=
  symbolPackets g kk rr (withIds kk cs)

/-- Receiver slot state after the first `j` originals (`pre`) of a group
with parameters `(kk, rr)` arrived in send order. -/
def midGroup (kk rr j : ℕ) (pre : List (List ℕ)) : CodeGroup :=
  if j = 0 then CodeGroup.fresh
  else { opened := true, done := false, k := kk, r := rr,
         ids := (List.range j).reverse, origs := withIds 0 pre, recs := [] }

/-- Receiver slot state after all `kk` originals (`all`) arrived in order. -/
def doneGroup (kk rr : ℕ) (all : List (List ℕ)) : CodeGroup :=
  { opened := true, done := true, k := kk, r := rr,
    ids := (List.range kk).reverse, origs := withIds 0 all, recs := [] }

theorem classifyGroup_self (c : ℕ) : classifyGroup c c = GroupClass.current := by
  simp only [classifyGroup, signedDist8]
  split_ifs <;> first | rfl | (exfalso; omega)

theorem closeGroup_fresh (st : RxState) (gi : Fin 256)
    (h : st.groups gi = CodeGroup.fresh) : closeGroup st gi = st := by
  simp [closeGroup, h, CodeGroup.fresh]

theorem advanceCursor_fresh (st : RxState) (id : ℕ)
    (h : ∀ i : Fin 256, st.groups i = CodeGroup.fresh) :
    advanceCursor st id = { st with largest := id % 256 } := by
  have hfold : ∀ l : List ℕ,
      l.foldl (fun acc t => closeGroup acc (groupIndex (st.largest + 1 + t))) st = st := by
    intro l
    induction l with
    | nil => rfl
    | cons x xs ih =>
      rw [List.foldl_cons, closeGroup_fresh st _ (h _)]
      exact ih
  simp only [advanceCursor]
  rw [hfold]

theorem runPackets_append (st : RxState) (a b : List (List ℕ)) :
    runPackets st (a ++ b) =
      ((runPackets (runPackets st a).1 b).1,
        (runPackets st a).2 ++ (runPackets (runPackets st a).1 b).2) := by
  induction a generalizing st with
  | nil => simp [runPackets]
  | cons p ps ih => simp [runPackets, ih, List.append_assoc]

/-- Write one slot of the receiver ring. -/
def setSlot (st : RxState) (g : ℕ) (G : CodeGroup) : RxState :=
  { st with groups := Function.update st.groups (groupIndex g) G }

/-- Record the final statistics contribution of a completed group. -/
def bumpStats (st : RxState) (kk : ℕ) : RxState :=
  { st with seen := st.seen + kk, count := st.count + kk }

/-- One in-order original symbol advances the slot from `midGroup j` to
`midGroup (j+1)` (or to `doneGroup` when it is the last one), delivering
exactly its payload. -/
theorem processSymbolCore_orig_step (g kk rr j : ℕ) (q : List ℕ) (st : RxState)
    (pre : List (List ℕ)) (hpre : pre.length = j) (hjk : j < kk)
    (hgrp : st.groups (groupIndex g) = midGroup kk rr j pre) :
    processSymbolCore st ⟨g, j, kk, rr, q⟩ =
      (if j + 1 < kk then setSlot st g (midGroup kk rr (j + 1) (pre ++ [q]))
       else bumpStats (setSlot st g (doneGroup kk rr (pre ++ [q]))) kk,
      [Event.onPacket q]) := by
  have hid : ¬(kk + rr ≤ j) := by omega
  by_cases h0 : j = 0
  · subst h0
    have hpre0 : pre = [] := List.length_eq_zero.mp hpre
    subst hpre0
    have hgrp' : st.groups (groupIndex g) = CodeGroup.fresh := by
      simpa [midGroup] using hgrp
    have hr1 : (List.range 1).reverse = [0] := by decide
    by_cases hfin : 0 + 1 < kk
    · rw [if_pos hfin]
      simp only [processSymbolCore, hgrp', CodeGroup.fresh]
      simp [hid, hjk, midGroup, withIds, hr1, setSlot,
        show ¬(kk ≤ 1) by omega, show (0:ℕ) < kk by omega, Nat.succ_ne_zero]
    · rw [if_neg hfin]
      have hk1 : kk = 1 := by omega
      subst hk1
      simp only [processSymbolCore, hgrp', CodeGroup.fresh]
      simp [hid, doneGroup, withIds, hr1, setSlot, bumpStats]
  · have hgrp' : st.groups (groupIndex g) =
        { opened := true, done := false, k := kk, r := rr,
          ids := (List.range j).reverse, origs := withIds 0 pre, recs := [] } := by
      simpa [midGroup, h0] using hgrp
    have hmem : j ∉ (List.range j).reverse := by
      simp [List.mem_reverse, List.mem_range]
    have hlen : (j :: (List.range j).reverse).length = j + 1 := by
      simp [List.length_reverse, List.length_range]
    have horig : withIds 0 pre ++ [(j, q)] = withIds 0 (pre ++ [q]) := by
      rw [withIds_append_singleton, hpre, Nat.zero_add]
    have hids : j :: (List.range j).reverse = (List.range (j + 1)).reverse := by
      rw [List.range_succ, List.reverse_append]
      rfl
    have horlen : (withIds 0 pre ++ [(j, q)]).length = j + 1 := by
      have hwl : ∀ (b : ℕ) (l : List (List ℕ)), (withIds b l).length = l.length := by
        intro b l
        induction l generalizing b with
        | nil => rfl
        | cons y ys ih => simp [withIds, ih]
      simp [hwl, hpre]
    by_cases hfin : j + 1 < kk
    · rw [if_pos hfin]
      simp only [processSymbolCore, hgrp']
      simp [hid, hjk, hmem, hlen, horig, hids, midGroup, Nat.succ_ne_zero, setSlot,
        show ¬(kk ≤ j + 1) by omega]
    · rw [if_neg hfin]
      have hk1 : kk = j + 1 := by omega
      subst hk1
      have horlen2 : (withIds 0 (pre ++ [q])).length = j + 1 := by
        rw [← horig]; exact horlen
      simp only [processSymbolCore, hgrp']
      simp [hid, hjk, hmem, hlen, horig, hids, horlen2, doneGroup, setSlot, bumpStats]

/-- The same step through `processSymbol`, when the cursor classification of
the group is `current` or `behind` (so no cursor motion happens). -/
theorem processSymbol_orig_step (g kk rr j : ℕ) (q : List ℕ) (st : RxState)
    (pre : List (List ℕ))
    (hcls : classifyGroup st.largest g = GroupClass.current ∨
      classifyGroup st.largest g = GroupClass.behind)
    (hpre : pre.length = j) (hjk : j < kk)
    (hgrp : st.groups (groupIndex g) = midGroup kk rr j pre) :
    processSymbol st ⟨g, j, kk, rr, q⟩ =
      (if j + 1 < kk then setSlot st g (midGroup kk rr (j + 1) (pre ++ [q]))
       else bumpStats (setSlot st g (doneGroup kk rr (pre ++ [q]))) kk,
      [Event.onPacket q]) := by
  have h1 : classifyGroup st.largest g ≠ GroupClass.stale := by
    rcases hcls with h | h <;> simp [h]
  have h2 : classifyGroup st.largest g ≠ GroupClass.ahead := by
    rcases hcls with h | h <;> simp [h]
  simp only [processSymbol]
  rw [if_neg h1, if_neg h2]
  exact processSymbolCore_orig_step g kk rr j q st pre hpre hjk hgrp

/-- Running the remaining in-order originals from the middle of a group
delivers exactly their payloads, in order, keeps the cursor, and closes the
group once all `kk` originals are in. -/
theorem runPackets_originals (g kk rr : ℕ) (suf : List (List ℕ)) :
    ∀ (j : ℕ) (st : RxState) (pre : List (List ℕ)),
      pre.length = j → kk = j + suf.length →
      (classifyGroup st.largest g = GroupClass.current ∨
        classifyGroup st.largest g = GroupClass.behind) →
      ((j < kk ∧ st.groups (groupIndex g) = midGroup kk rr j pre) ∨
        (j = kk ∧ ((st.groups (groupIndex g)).done = true))) →
      (runPackets st (symbolPackets g kk rr (withIds j suf))).2
          = suf.map Event.onPacket ∧
      (runPackets st (symbolPackets g kk rr (withIds j suf))).1.largest = st.largest ∧
      (((runPackets st (symbolPackets g kk rr (withIds j suf))).1.groups
          (groupIndex g)).done = true ∨ (suf = [] ∧ j < kk)) := by
  induction suf with
  | nil =>
    intro j st pre hpre hkk hcls hinv
    refine ⟨rfl, rfl, ?_⟩
    rcases hinv with ⟨hjk, _⟩ | ⟨_, hdone⟩
    · exact Or.inr ⟨rfl, hjk⟩
    · exact Or.inl hdone
  | cons q qs ih =>
    intro j st pre hpre hkk hcls hinv
    have hkk1 : kk = j + (qs.length + 1) := by simpa using hkk
    have hjk : j < kk := by omega
    have hgrp : st.groups (groupIndex g) = midGroup kk rr j pre := by
      rcases hinv with ⟨_, h⟩ | ⟨hjeq, _⟩
      · exact h
      · omega
    have hstep := processSymbol_orig_step g kk rr j q st pre hcls hpre hjk hgrp
    have hpkts : symbolPackets g kk rr (withIds j (q :: qs))
        = (g :: j :: kk :: rr :: q) :: symbolPackets g kk rr (withIds (j + 1) qs) := by
      simp [symbolPackets, withIds]
    rw [hpkts]
    set st' := (processSymbol st ⟨g, j, kk, rr, q⟩).1 with hst'
    have hrun : runPackets st ((g :: j :: kk :: rr :: q) ::
        symbolPackets g kk rr (withIds (j + 1) qs))
        = ((runPackets st' (symbolPackets g kk rr (withIds (j + 1) qs))).1,
          (processSymbol st ⟨g, j, kk, rr, q⟩).2 ++
            (runPackets st' (symbolPackets g kk rr (withIds (j + 1) qs))).2) := by
      simp [runPackets, OnData, hst']
    have hlarge : st'.largest = st.largest := by
      rw [hst', hstep]
      split <;> rfl
    have hcls' : classifyGroup st'.largest g = GroupClass.current ∨
        classifyGroup st'.largest g = GroupClass.behind := by
      rw [hlarge]; exact hcls
    have hinv' : ((j + 1 < kk ∧ st'.groups (groupIndex g) = midGroup kk rr (j + 1) (pre ++ [q])) ∨
        (j + 1 = kk ∧ ((st'.groups (groupIndex g)).done = true))) := by
      rw [hst', hstep]
      by_cases hfin : j + 1 < kk
      · left
        refine ⟨hfin, ?_⟩
        rw [if_pos hfin]
        simp [setSlot, Function.update_same]
      · right
        refine ⟨by omega, ?_⟩
        rw [if_neg hfin]
        simp [setSlot, bumpStats, Function.update_same, doneGroup]
    have hih := ih (j + 1) st' (pre ++ [q]) (by simp [hpre]) (by omega) hcls' hinv'
    have hev : (processSymbol st ⟨g, j, kk, rr, q⟩).2 = [Event.onPacket q] := by
      rw [hstep]
    refine ⟨?_, ?_, ?_⟩
    · rw [hrun]
      simp only [hev, hih.1]
      rfl
    · rw [hrun]
      simpa [hih.2.1] using hlarge
    · rw [hrun]
      rcases hih.2.2 with h | ⟨hnil, hlt⟩
      · exact Or.inl h
      · left
        subst hnil
        have hkk2 : kk = j + 1 := by simpa using hkk1
        rcases hinv' with ⟨hlt', _⟩ | ⟨_, hdone⟩
        · omega
        · simpa [runPackets, symbolPackets, withIds] using hdone


/-- Data symbols of a group already marked done are dropped (counted for
statistics only), producing no deliveries and no other state change. -/
theorem runPackets_done_drops (g kk rr : ℕ) (cs : List (ℕ × List ℕ)) :
    ∀ st : RxState,
      (classifyGroup st.largest g = GroupClass.current ∨
        classifyGroup st.largest g = GroupClass.behind) →
      ((st.groups (groupIndex g)).done = true) →
      (runPackets st (symbolPackets g kk rr cs)).2 = [] := by
  induction cs with
  | nil => intro st _ _; rfl
  | cons c cstail ih =>
    intro st hcls hdone
    have h1 : classifyGroup st.largest g ≠ GroupClass.stale := by
      rcases hcls with h | h <;> simp [h]
    have h2 : classifyGroup st.largest g ≠ GroupClass.ahead := by
      rcases hcls with h | h <;> simp [h]
    have hstep : processSymbol st ⟨g, c.1, kk, rr, c.2⟩ =
        ({ st with count := st.count + 1 }, []) := by
      simp only [processSymbol]
      rw [if_neg h1, if_neg h2]
      simp only [processSymbolCore]
      rw [if_pos hdone]
    have hpkts : symbolPackets g kk rr (c :: cstail)
        = (g :: c.1 :: kk :: rr :: c.2) :: symbolPackets g kk rr cstail := rfl
    rw [hpkts]
    have hOn : OnData st (g :: c.1 :: kk :: rr :: c.2)
        = processSymbol st ⟨g, c.1, kk, rr, c.2⟩ := rfl
    simp only [runPackets, hOn, hstep, List.nil_append]
    exact ih _ hcls hdone

/-- Processing all originals of one group in send order from a fresh
receiver delivers exactly the submitted payloads in order and closes the
group, whatever the initial cursor classification of the group id. -/
theorem runPackets_fresh_originals (g : ℕ) (hg : g < 256) (kk rr : ℕ)
    (ps : List (List ℕ)) (hkk : kk = ps.length) (hne : ps ≠ []) :
    (runPackets freshRx (symbolPackets g kk rr (withIds 0 ps))).2
        = ps.map Event.onPacket ∧
    (classifyGroup ((runPackets freshRx (symbolPackets g kk rr (withIds 0 ps))).1).largest g
        = GroupClass.current ∨
      classifyGroup ((runPackets freshRx (symbolPackets g kk rr (withIds 0 ps))).1).largest g
        = GroupClass.behind) ∧
    (((runPackets freshRx (symbolPackets g kk rr (withIds 0 ps))).1.groups
        (groupIndex g)).done = true) := by
  have hkpos : 0 < kk := by
    rw [hkk]
    exact List.length_pos.mpr hne
  by_cases hca : classifyGroup freshRx.largest g = GroupClass.ahead
  · obtain ⟨p, ps', rfl⟩ := List.exists_cons_of_ne_nil hne
    have hkk1 : kk = 1 + ps'.length := by simpa [Nat.add_comm] using hkk
    have hadv : advanceCursor freshRx g =
        (⟨g, fun _ => CodeGroup.fresh, 0, 0⟩ : RxState) := by
      rw [advanceCursor_fresh freshRx g (fun i => rfl)]
      simp [freshRx, Nat.mod_eq_of_lt hg]
    have hfirst : processSymbol freshRx ⟨g, 0, kk, rr, p⟩ =
        (if 0 + 1 < kk then
          setSlot (⟨g, fun _ => CodeGroup.fresh, 0, 0⟩ : RxState) g (midGroup kk rr 1 [p])
         else bumpStats (setSlot (⟨g, fun _ => CodeGroup.fresh, 0, 0⟩ : RxState) g
            (doneGroup kk rr [p])) kk,
        [Event.onPacket p]) := by
      simp only [processSymbol]
      rw [if_neg (classifyGroup_ne_stale _ _), if_pos hca, hadv]
      exact processSymbolCore_orig_step g kk rr 0 p _ [] rfl hkpos rfl
    have hpkts : symbolPackets g kk rr (withIds 0 (p :: ps'))
        = (g :: 0 :: kk :: rr :: p) :: symbolPackets g kk rr (withIds 1 ps') := rfl
    rw [hpkts]
    set st1 := (processSymbol freshRx ⟨g, 0, kk, rr, p⟩).1 with hst1
    have hrun : runPackets freshRx ((g :: 0 :: kk :: rr :: p) ::
        symbolPackets g kk rr (withIds 1 ps'))
        = ((runPackets st1 (symbolPackets g kk rr (withIds 1 ps'))).1,
          (processSymbol freshRx ⟨g, 0, kk, rr, p⟩).2 ++
            (runPackets st1 (symbolPackets g kk rr (withIds 1 ps'))).2) := by
      simp [runPackets, OnData, hst1]
    have hlarge1 : st1.largest = g := by
      rw [hst1, hfirst]
      split <;> rfl
    have hcls1 : classifyGroup st1.largest g = GroupClass.current ∨
        classifyGroup st1.largest g = GroupClass.behind := by
      left
      rw [hlarge1]
      exact classifyGroup_self g
    have hinv1 : ((1 < kk ∧ st1.groups (groupIndex g) = midGroup kk rr 1 [p]) ∨
        (1 = kk ∧ ((st1.groups (groupIndex g)).done = true))) := by
      rw [hst1, hfirst]
      by_cases hfin : 0 + 1 < kk
      · left
        refine ⟨by omega, ?_⟩
        rw [if_pos hfin]
        simp [setSlot, Function.update_same]
      · right
        refine ⟨by omega, ?_⟩
        rw [if_neg hfin]
        simp [setSlot, bumpStats, Function.update_same, doneGroup]
    have hih := runPackets_originals g kk rr ps' 1 st1 [p] rfl (by omega) hcls1 hinv1
    have hev : (processSymbol freshRx ⟨g, 0, kk, rr, p⟩).2 = [Event.onPacket p] := by
      rw [hfirst]
    refine ⟨?_, ?_, ?_⟩
    · rw [hrun]
      simp only [hev, hih.1]
      rfl
    · rw [hrun]
      left
      have hlg : (runPackets st1 (symbolPackets g kk rr (withIds 1 ps'))).1.largest = g := by
        rw [hih.2.1, hlarge1]
      rw [hlg]
      exact classifyGroup_self g
    · rw [hrun]
      rcases hih.2.2 with h | ⟨hnil, hlt⟩
      · exact h
      · exfalso
        subst hnil
        have hko : kk = 1 := by simpa using hkk1
        omega
  · have hcls : classifyGroup freshRx.largest g = GroupClass.current ∨
        classifyGroup freshRx.largest g = GroupClass.behind := by
      cases h : classifyGroup freshRx.largest g with
      | current => exact Or.inl rfl
      | ahead => exact absurd h hca
      | behind => exact Or.inr rfl
      | stale => exact absurd h (classifyGroup_ne_stale _ _)
    have hih := runPackets_originals g kk rr ps 0 freshRx [] rfl (by omega) hcls
      (Or.inl ⟨hkpos, rfl⟩)
    refine ⟨hih.1, ?_, ?_⟩
    · rw [hih.2.1]
      exact hcls
    · rcases hih.2.2 with h | ⟨hnil, _⟩
      · exact h
      · exact absurd hnil hne

/-- C3: for every code group whose symbols arrive at the receiver in send
order with no loss (the originals in submission order, followed by the
group's recovery symbols), `OnPacket` is invoked exactly once per original
payload, in the order the originals were submitted to `Send`: no original
is delivered twice, none is withheld, and the recovery symbols contribute
no further deliveries. -/
theorem OnData_inorder_exactly_once (g : ℕ) (hg : g < 256)
    (ps cs : List (List ℕ)) (hne : ps ≠ []) :
    (runPackets freshRx
        (originalPackets g ps.length cs.length ps ++
          recoveryPackets g ps.length cs.length cs)).2
      = ps.map Event.onPacket := by
  simp only [originalPackets, recoveryPackets]
  rw [runPackets_append]
  have hA := runPackets_fresh_originals g hg ps.length cs.length ps rfl hne
  have hB := runPackets_done_drops g ps.length cs.length (withIds ps.length cs)
    (runPackets freshRx (symbolPackets g ps.length cs.length (withIds 0 ps))).1
    hA.2.1 hA.2.2
  rw [hA.1, hB, List.append_nil]

/-- Witness for C3: group 5 with originals `[1]`, `[2, 3]` and one recovery
chunk; the delivered sequence equals the submitted sequence. -/
theorem OnData_inorder_witness :
    (runPackets freshRx
        (originalPackets 5 2 1 [[1], [2, 3]] ++ recoveryPackets 5 2 1 [[7, 7]])).2
      = [Event.onPacket [1], Event.onPacket [2, 3]] :=
  OnData_inorder_exactly_once 5 (by decide) [[1], [2, 3]] [[7, 7]] (by decide)

end Shorthair
